import Mathlib

/-!
Verification of the portfolio sync/versioning engine of the coinolio API
(`app/services/sync_manager.py`, `app/api/v1/endpoints/portfolios.py`,
`app/models/portfolio.py`), via a shallow embedding of the Python code.

Documents (`portfolio.data`, `sync_request.client_data`, ...) are JSON-shaped
nested dictionaries; we embed them as the `Json` inductive below.  Python
dictionaries cannot contain duplicate keys, so a well-formedness predicate
(`wfJ`) restricts attention to such values where a proof needs it.
-/

/-- Value of a JSON-shaped Python object: scalars, lists and (insertion-ordered)
string-keyed dictionaries, as stored in `portfolio.data`. -/
inductive Json where
  | str (s : String)
  | int (n : Int)
  | bool (b : Bool)
  | null
  | arr (xs : List Json)
  | obj (kvs : List (String × Json))

/-- Entries of a Python dict, in insertion order. -/
abbrev Jobj := List (String × Json)

/-- Lookup of a key in a dict (first occurrence). -/
def lookupKV (l : Jobj) (k : String) : Option Json :=
  match l with
  | [] => none
  | (k', v) :: rest => if k' = k then some v else lookupKV rest k

/-- Membership test for a key (Python `k in d`). -/
def hasKeyKV (l : Jobj) (k : String) : Bool :=
  (lookupKV l k).isSome

mutual
/-- Structural (order-sensitive, everywhere) Boolean equality on `Json`. -/
def beqJ : Json → Json → Bool
  | .str a, .str b => a == b
  | .int a, .int b => a == b
  | .bool a, .bool b => a == b
  | .null, .null => true
  | .arr xs, .arr ys => beqL xs ys
  | .obj a, .obj b => beqKV a b
  | _, _ => false

/-- Elementwise equality of JSON lists. -/
def beqL : List Json → List Json → Bool
  | [], [] => true
  | x :: xs, y :: ys => beqJ x y && beqL xs ys
  | _, _ => false

/-- Entrywise equality of dict entry lists. -/
def beqKV : Jobj → Jobj → Bool
  | [], [] => true
  | (k, v) :: xs, (k', v') :: ys => k == k' && beqJ v v' && beqKV xs ys
  | _, _ => false
end

mutual
theorem beqJ_refl : ∀ x, beqJ x x = true
  | .str s => by simp [beqJ]
  | .int n => by simp [beqJ]
  | .bool b => by simp [beqJ]
  | .null => by simp [beqJ]
  | .arr xs => by simp [beqJ, beqL_refl xs]
  | .obj kvs => by simp [beqJ, beqKV_refl kvs]

theorem beqL_refl : ∀ xs, beqL xs xs = true
  | [] => by simp [beqL]
  | x :: xs => by simp [beqL, beqJ_refl x, beqL_refl xs]

theorem beqKV_refl : ∀ l, beqKV l l = true
  | [] => by simp [beqKV]
  | (k, v) :: rest => by simp [beqKV, beqJ_refl v, beqKV_refl rest]
end

/-- Unequal values per `beqJ` are propositionally unequal. -/
theorem ne_of_beqJ_false {a b : Json} (h : beqJ a b = false) : a ≠ b := by
  intro he
  subst he
  rw [beqJ_refl] at h
  exact Bool.noConfusion h

/-- Insert a dict entry into a key-sorted entry list (stable insertion sort). -/
def insertByKey (p : String × Json) : Jobj → Jobj
  | [] => [p]
  | q :: rest => if p.1 < q.1 then p :: q :: rest else q :: insertByKey p rest

/-- Key-sort a dict entry list. -/
def sortKVs : Jobj → Jobj
  | [] => []
  | p :: rest => insertByKey p (sortKVs rest)

mutual
/-- Total comparison on `Json`, used only to give lists a canonical element
order when modelling DeepDiff's `ignore_order=True`. -/
def cmpJ : Json → Json → Ordering
  | .str a, .str b => compare a b
  | .str _, _ => .lt
  | _, .str _ => .gt
  | .int a, .int b => compare a b
  | .int _, _ => .lt
  | _, .int _ => .gt
  | .bool a, .bool b => compare a b
  | .bool _, _ => .lt
  | _, .bool _ => .gt
  | .null, .null => .eq
  | .null, _ => .lt
  | _, .null => .gt
  | .arr xs, .arr ys => cmpL xs ys
  | .arr _, _ => .lt
  | _, .arr _ => .gt
  | .obj a, .obj b => cmpKV a b

/-- Lexicographic comparison of JSON lists. -/
def cmpL : List Json → List Json → Ordering
  | [], [] => .eq
  | [], _ :: _ => .lt
  | _ :: _, [] => .gt
  | x :: xs, y :: ys => (cmpJ x y).then (cmpL xs ys)

/-- Lexicographic comparison of dict entry lists. -/
def cmpKV : Jobj → Jobj → Ordering
  | [], [] => .eq
  | [], _ :: _ => .lt
  | _ :: _, [] => .gt
  | (k, v) :: xs, (k', v') :: ys => (compare k k').then ((cmpJ v v').then (cmpKV xs ys))
end

/-- Insert a value into a `cmpJ`-sorted list. -/
def insertByCmp (x : Json) : List Json → List Json
  | [] => [x]
  | y :: rest => if cmpJ x y = .gt then y :: insertByCmp x rest else x :: y :: rest

/-- Sort a JSON list by `cmpJ`. -/
def sortByCmp : List Json → List Json
  | [] => []
  | x :: rest => insertByCmp x (sortByCmp rest)

mutual
/-- Canonical form under Python `==` on documents: dictionaries compare by key
set (key order is irrelevant), lists compare elementwise in order.  Two values
are Python-`==` iff their `canonPy` forms are structurally equal. -/
def canonPy : Json → Json
  | .arr xs => .arr (canonPyL xs)
  | .obj kvs => .obj (sortKVs (canonPyKV kvs))
  | x => x

/-- Pointwise `canonPy` over a list. -/
def canonPyL : List Json → List Json
  | [] => []
  | x :: xs => canonPy x :: canonPyL xs

/-- Pointwise `canonPy` over dict entries. -/
def canonPyKV : Jobj → Jobj
  | [] => []
  | (k, v) :: rest => (k, canonPy v) :: canonPyKV rest
end

mutual
/-- Canonical form under DeepDiff's `ignore_order=True` comparison: dictionary
key order AND list element order are both irrelevant, so lists are additionally
sorted.  Two values are ignore-order equal iff their `canonDD` forms are
structurally equal. -/
def canonDD : Json → Json
  | .arr xs => .arr (sortByCmp (canonDDL xs))
  | .obj kvs => .obj (sortKVs (canonDDKV kvs))
  | x => x

/-- Pointwise `canonDD` over a list. -/
def canonDDL : List Json → List Json
  | [] => []
  | x :: xs => canonDD x :: canonDDL xs

/-- Pointwise `canonDD` over dict entries. -/
def canonDDKV : Jobj → Jobj
  | [] => []
  | (k, v) :: rest => (k, canonDD v) :: canonDDKV rest
end

/-- Python `==` on documents (Boolean). -/
def pyEqJ (a b : Json) : Bool := beqJ (canonPy a) (canonPy b)

/-- Keys of a dict entry list are pairwise distinct. -/
def nodupKeys : Jobj → Bool
  | [] => true
  | (k, _) :: rest => !hasKeyKV rest k && nodupKeys rest

mutual
/-- Well-formed JSON value: every dictionary that occurs in it has pairwise
distinct keys (true of every value a Python dict can represent). -/
def wfJ : Json → Bool
  | .arr xs => wfL xs
  | .obj kvs => nodupKeys kvs && wfKV kvs
  | _ => true

/-- All elements well-formed. -/
def wfL : List Json → Bool
  | [] => true
  | x :: xs => wfJ x && wfL xs

/-- All entry values well-formed. -/
def wfKV : Jobj → Bool
  | [] => true
  | (_, v) :: rest => wfJ v && wfKV rest
end

/-- Values reachable by `lookupKV` are structurally smaller than the dict. -/
theorem lookupKV_sizeOf_lt : ∀ (l : Jobj) (k : String) (v : Json),
    lookupKV l k = some v → sizeOf v < sizeOf l
  | [], _, _, h => by simp [lookupKV] at h
  | (k', w) :: rest, k, v, h => by
    simp only [lookupKV] at h
    by_cases hk : k' = k
    · rw [if_pos hk] at h
      injection h with h
      subst h
      simp only [List.cons.sizeOf_spec, Prod.mk.sizeOf_spec]
      omega
    · rw [if_neg hk] at h
      have := lookupKV_sizeOf_lt rest k v h
      simp only [List.cons.sizeOf_spec]
      omega

/-- Output of the `DeepDiff(old, new, ignore_order=True)` call in
`SyncManager.detect_changes`, restricted to the report buckets that function
reads (`dictionary_item_added`, `dictionary_item_removed`, `values_changed`,
`type_changes`); every other bucket the library can emit is collapsed into
`iterableChanged`, which `detect_changes` never reads.  Paths are kept as
structured key sequences; the source's `root['a']['b']` strings and its
`.replace(...)` chain amount to dot-joining the keys (`dotJoin` below) for
keys free of quotes and dots, which is the only case the repository uses. -/
structure Diff where
  dictAdded : List (List String)
  dictRemoved : List (List String)
  valuesChanged : List (List String)
  typeChanges : List (List String)
  iterableChanged : List (List String)
deriving DecidableEq, Repr

/-- Empty diff report. -/
def Diff.empty : Diff := ⟨[], [], [], [], []⟩

/-- Bucketwise concatenation of diff reports. -/
def Diff.append (a b : Diff) : Diff :=
  ⟨a.dictAdded ++ b.dictAdded, a.dictRemoved ++ b.dictRemoved,
   a.valuesChanged ++ b.valuesChanged, a.typeChanges ++ b.typeChanges,
   a.iterableChanged ++ b.iterableChanged⟩

mutual
/-- Model of the DeepDiff library comparison with `ignore_order=True`, as
invoked by `SyncManager.detect_changes`: dictionaries are compared by key
(a key only in `new` reports the whole subtree under `dictionary_item_added`,
a key only in `old` under `dictionary_item_removed`, a key in both recurses);
scalars of equal type report `values_changed` when unequal; values of
different runtime type report `type_changes`; lists are compared up to
element order (and, recursively, dict key order) because of
`ignore_order=True` — a list mismatch beyond reordering lands in buckets
`detect_changes` ignores. -/
def deepDiff (pre : List String) : Json → Json → Diff
  | .obj old, .obj new =>
      let added := new.filterMap (fun kv => if hasKeyKV old kv.1 then none else some (pre ++ [kv.1]))
      let removed := old.filterMap (fun kv => if hasKeyKV new kv.1 then none else some (pre ++ [kv.1]))
      let rest := diffCommon pre new old
      { rest with dictAdded := rest.dictAdded ++ added, dictRemoved := rest.dictRemoved ++ removed }
  | .arr xs, .arr ys =>
      if beqJ (canonDD (.arr xs)) (canonDD (.arr ys)) then Diff.empty
      else { Diff.empty with iterableChanged := [pre] }
  | .str a, .str b => if a == b then Diff.empty else { Diff.empty with valuesChanged := [pre] }
  | .int a, .int b => if a == b then Diff.empty else { Diff.empty with valuesChanged := [pre] }
  | .bool a, .bool b => if a == b then Diff.empty else { Diff.empty with valuesChanged := [pre] }
  | .null, .null => Diff.empty
  | _, _ => { Diff.empty with typeChanges := [pre] }

/-- Recursion of `deepDiff` over the keys common to both dictionaries:
iterates the entries of `old`, diffing against the value in `new` when the
key is present there. -/
def diffCommon (pre : List String) (new : Jobj) : Jobj → Diff
  | [] => Diff.empty
  | (k, v) :: rest =>
      match lookupKV new k with
      | some w => (deepDiff (pre ++ [k]) v w).append (diffCommon pre new rest)
      | none => diffCommon pre new rest
end

/-- Change kinds of `app.schemas.portfolio_sync.ChangeType`. -/
inductive ChangeType where
  | ADDED
  | DELETED
  | MODIFIED
deriving DecidableEq, Repr

/-- Entry of the change list built by `SyncManager.detect_changes`
(`app.schemas.portfolio_sync.SyncChange`): a change kind, a dot-joined path,
and an optional value payload (absent for deletions). -/
structure SyncChange where
  type : ChangeType
  path : String
  value : Option Json

/-- Dot-joined path string, the net effect of the source's
`path.replace("root['", "").replace("']['", ".").replace("']", "").replace("'", "")`
chain on DeepDiff's `root['k1']['k2']...` path strings for plain keys. -/
def dotJoin (p : List String) : String := String.intercalate "." p

/-- Split a character list at every occurrence of `sep` (no collapsing). -/
def splitChars (sep : Char) : List Char → List (List Char)
  | [] => [[]]
  | c :: rest =>
    let r := splitChars sep rest
    if c = sep then [] :: r
    else
      match r with
      | h :: t => (c :: h) :: t
      | [] => [[c]]

/-- Python `s.split(sep)` for a one-character separator, as used by
`_get_value_by_path` (`path.split('.')`): split at every occurrence, keeping
empty pieces. -/
def pySplit (sep : Char) (s : String) : List String :=
  (splitChars sep s.data).map (fun cs => String.mk cs)

/-- Model of `SyncManager._get_value_by_path`: walk the keys of a
dot-separated path through nested dicts, defaulting a missing key to `{}` and
returning the current node early when it is not a dict. -/
def get_value_by_path (data : Json) : List String → Json
  | [] => data
  | k :: rest =>
    match data with
    | .obj kvs => get_value_by_path ((lookupKV kvs k).getD (.obj [])) rest
    | other => other

/-- Payload wrapping in `detect_changes`:
`value if isinstance(value, dict) else {"value": value}`. -/
def wrapVal (v : Json) : Json :=
  match v with
  | .obj kvs => .obj kvs
  | other => .obj [("value", other)]

/-- Model of `SyncManager.detect_changes`: run DeepDiff with
`ignore_order=True`, then turn the `dictionary_item_added` bucket into ADDED
changes, `dictionary_item_removed` into DELETED changes (no value echoed), and
both `values_changed` and `type_changes` into MODIFIED changes; ADDED and
MODIFIED fetch their payload from `new_data` via `_get_value_by_path` on the
cleaned path and wrap non-dict payloads as `{"value": ...}`.  The debug
`print` calls of the source have no effect on the returned list. -/
def detect_changes (old_data new_data : Jobj) : List SyncChange :=
  let diff := deepDiff [] (.obj old_data) (.obj new_data)
  (diff.dictAdded.map fun p =>
    ⟨.ADDED, dotJoin p, some (wrapVal (get_value_by_path (.obj new_data) (pySplit '.' (dotJoin p))))⟩)
  ++ (diff.dictRemoved.map fun p => ⟨.DELETED, dotJoin p, none⟩)
  ++ (diff.valuesChanged.map fun p =>
    ⟨.MODIFIED, dotJoin p, some (wrapVal (get_value_by_path (.obj new_data) (pySplit '.' (dotJoin p))))⟩)
  ++ (diff.typeChanges.map fun p =>
    ⟨.MODIFIED, dotJoin p, some (wrapVal (get_value_by_path (.obj new_data) (pySplit '.' (dotJoin p))))⟩)

/-- Embedding of a Python `datetime`: `clock` is the wall-clock reading in
seconds counted from 1970-01-01T00:00:00 as displayed (not the absolute
instant), and `tz` is `utcoffset()` in seconds, `none` for a naive datetime. -/
structure PyDatetime where
  clock : Int
  tz : Option Int
deriving DecidableEq, Repr

/-- The value `datetime.fromtimestamp(0, tz=timezone.utc)`: the Unix epoch as
an aware UTC datetime. -/
def epochUtc : PyDatetime := ⟨0, some 0⟩

/-- Python `dt.astimezone(timezone.utc)` for an aware `dt`: same absolute
instant, displayed in UTC. (`SyncManager._ensure_timezone_aware` only calls it
after making `dt` aware.) -/
def astimezoneUtc (d : PyDatetime) : PyDatetime := ⟨d.clock - d.tz.getD 0, some 0⟩

/-- Absolute instant of an aware datetime, in seconds since the epoch.
Python compares aware datetimes by this value. -/
def instant (d : PyDatetime) : Int := d.clock - d.tz.getD 0

/-- Argument passed to `SyncManager._ensure_timezone_aware`: the source
handles `None`, an ISO-8601 string, or a `datetime`. -/
inductive TimeInput where
  | null
  | ofStr (s : String)
  | ofDt (d : PyDatetime)

/-- View of an optional datetime column as an `_ensure_timezone_aware` input. -/
def optTime : Option PyDatetime → TimeInput
  | none => .null
  | some d => .ofDt d

/-- Model of `SyncManager._ensure_timezone_aware`.  `parseIso` stands for the
standard-library `datetime.fromisoformat`, left abstract (its `none` result
models the raised-and-caught `ValueError`); every theorem below holds for
every `parseIso`.  `None` maps to the epoch; an unparseable string maps to the
epoch; a naive datetime is reinterpreted as UTC via `replace(tzinfo=utc)`
(clock unchanged); finally the aware datetime is converted to UTC. -/
def ensure_timezone_aware (parseIso : String → Option PyDatetime) : TimeInput → PyDatetime
  | .null => epochUtc
  | .ofStr s =>
    match parseIso (s.replace "Z" "+00:00") with
    | none => epochUtc
    | some d => astimezoneUtc (if d.tz = none then { d with tz := some 0 } else d)
  | .ofDt d => astimezoneUtc (if d.tz = none then { d with tz := some 0 } else d)

/-- Server-side `Portfolio` row (`app.models.portfolio.Portfolio`), restricted
to the columns the sync engine reads or writes. -/
structure Portfolio where
  data : Jobj
  version : Int
  total_value_usd : Int
  asset_count : Nat
  is_cloud_synced : Bool
  last_sync_at : Option PyDatetime
  last_sync_device : Option String

/-- Client sync request (`app.schemas.portfolio_sync.SyncRequest`). -/
structure SyncRequest where
  client_data : Jobj
  last_sync_at : TimeInput
  client_version : Int
  device_id : String

/-- Result of `SyncManager.get_sync_status`. -/
structure SyncStatus where
  needs_sync : Bool
  has_conflicts : Bool
  server_version : Int
  server_last_sync : Option PyDatetime
deriving DecidableEq, Repr

/-- Model of `SyncManager.get_sync_status`: a portfolio that was never cloud
synced always needs sync without conflict; a client/server version mismatch is
a conflict; otherwise differing documents (Python `==`, key-order-insensitive)
need a non-conflicting sync (the two `_ensure_timezone_aware` calls in that
branch are dead code, `noqa: F841` in the source); else no sync is needed. -/
def get_sync_status (p : Portfolio) (req : SyncRequest) : SyncStatus :=
  if !p.is_cloud_synced then ⟨true, false, p.version, p.last_sync_at⟩
  else if req.client_version ≠ p.version then ⟨true, true, p.version, p.last_sync_at⟩
  else if !pyEqJ (.obj req.client_data) (.obj p.data) then ⟨true, false, p.version, p.last_sync_at⟩
  else ⟨false, false, p.version, p.last_sync_at⟩

/-- Model of `SyncManager.generate_sync_metadata`; `nowIso` stands for
`datetime.now(timezone.utc).isoformat()` at the call. -/
def generate_sync_metadata (device_id nowIso : String) : Jobj :=
  [("sync_version", .str "1.0.0"), ("device_id", .str device_id), ("timestamp", .str nowIso)]

/-- Python `d[k] = v`: replace the value of an existing key, else append. -/
def setKeyKV (l : Jobj) (k : String) (v : Json) : Jobj :=
  if hasKeyKV l k then l.map (fun kv => if kv.1 = k then (kv.1, v) else kv) else l ++ [(k, v)]

/-- Python `d.update(e)` on dicts, entry by entry. -/
def dictUpdate (d e : Jobj) : Jobj :=
  e.foldl (fun acc kv => setKeyKV acc kv.1 kv.2) d

/-- The metadata stamping at the end of `SyncManager.merge_portfolios`:
`if "metadata" not in merged: merged["metadata"] = {}` followed by
`merged["metadata"].update(meta)`.  Returns `none` when `merged["metadata"]`
exists but is not a dict, where the source would raise `AttributeError`. -/
def applyMetaUpdate (merged meta : Jobj) : Option Jobj :=
  let merged1 := if hasKeyKV merged "metadata" then merged else merged ++ [("metadata", .obj [])]
  match lookupKV merged1 "metadata" with
  | some (.obj m) => some (setKeyKV merged1 "metadata" (.obj (dictUpdate m meta)))
  | _ => none

/-- Model of `SyncManager.merge_portfolios` (last-write-wins): normalize both
timestamps with `_ensure_timezone_aware`, take the client document when the
client timestamp is strictly later, otherwise the server document, then stamp
the sync metadata into `merged["metadata"]`. -/
def merge_portfolios (parseIso : String → Option PyDatetime) (p : Portfolio)
    (req : SyncRequest) (nowIso : String) : Option Jobj :=
  let client_time := ensure_timezone_aware parseIso req.last_sync_at
  let server_time := ensure_timezone_aware parseIso (optTime p.last_sync_at)
  let merged := if instant server_time < instant client_time then req.client_data else p.data
  applyMetaUpdate merged (generate_sync_metadata req.device_id nowIso)

/-- Model of `SyncManager.merge_portfolios_db`: consult `get_sync_status`;
when no sync is needed return the portfolio unchanged; otherwise run
`detect_changes` (result unused, `noqa: F841`), merge by last-write-wins, and
overwrite the live row: new data, `version += 1`, `last_sync_at = now`,
`last_sync_device`, `is_cloud_synced = True`.  `now`/`nowIso` stand for
`datetime.now(timezone.utc)` and its `isoformat()`.  No `PortfolioVersion`
ledger row is created on this path. -/
def merge_portfolios_db (parseIso : String → Option PyDatetime) (p : Portfolio)
    (req : SyncRequest) (now : PyDatetime) (nowIso : String) : Option Portfolio :=
  let status := get_sync_status p req
  if !status.needs_sync then some p
  else
    let _changes := detect_changes p.data req.client_data
    match merge_portfolios parseIso p req nowIso with
    | none => none
    | some merged =>
      some { p with
        data := merged
        version := p.version + 1
        last_sync_at := some now
        last_sync_device := some req.device_id
        is_cloud_synced := true }

/-- Python `len(...)` on the JSON values it is defined for (`len` of a number,
boolean or `None` raises `TypeError`, modelled as `none`). -/
def pyLen : Json → Option Nat
  | .obj kvs => some kvs.length
  | .arr xs => some xs.length
  | .str s => some s.length
  | _ => none

/-- Model of `calculate_portfolio_metrics` in
`app/api/v1/endpoints/portfolios.py`: `total_value = 0` (the source never
computes a value: "In a real app, you'd fetch current prices and calculate
actual value"), and `asset_count = len(data.get("assets", {}))`. -/
def calculate_portfolio_metrics (data : Jobj) : Option (Int × Nat) :=
  (pyLen ((lookupKV data "assets").getD (.obj []))).map (fun c => ((0 : Int), c))

/-- Ledger row (`app.models.portfolio.PortfolioVersion`), restricted to the
columns the engine writes; `portfolio_id` is implicit since the model tracks a
single portfolio.  The table carries a unique index on
`(portfolio_id, version)`. -/
structure PortfolioVersionRow where
  version : Int
  data : Jobj
  total_value_usd : Int
  asset_count : Nat
  change_summary : Option Json

/-- The `change_summary` dict built inside `create_portfolio_version` when
`old_data` is given: asset ids added, removed, and present in both but with a
different value under Python `==`.  `none` models the `KeyError`/`TypeError`
raised when either document lacks a dict under `"assets"`. -/
def change_summary_calc (newData oldData : Jobj) : Option Json :=
  match lookupKV newData "assets", lookupKV oldData "assets" with
  | some (.obj newAssets), some (.obj oldAssets) =>
    some (.obj [
      ("added_assets",
        .arr ((newAssets.filter (fun kv => !hasKeyKV oldAssets kv.1)).map (fun kv => .str kv.1))),
      ("removed_assets",
        .arr ((oldAssets.filter (fun kv => !hasKeyKV newAssets kv.1)).map (fun kv => .str kv.1))),
      ("modified_assets",
        .arr ((newAssets.filter (fun kv => hasKeyKV oldAssets kv.1
          && !pyEqJ kv.2 ((lookupKV oldAssets kv.1).getD .null))).map (fun kv => .str kv.1)))])
  | _, _ => none

/-- Model of `create_portfolio_version`: recompute the metrics from the
portfolio's live data, build the change summary when `old_data` is truthy
(Python `if old_data:` — `None` and the empty dict both skip it), and build a
ledger row carrying the portfolio's current `version` and live `data`.  The
caller is responsible for adding the row to the session. -/
def create_portfolio_version (p : Portfolio) (old_data : Option Jobj) :
    Option PortfolioVersionRow :=
  match calculate_portfolio_metrics p.data with
  | none => none
  | some (tv, ac) =>
    match old_data with
    | none => some ⟨p.version, p.data, tv, ac, none⟩
    | some od =>
      if od.isEmpty then some ⟨p.version, p.data, tv, ac, none⟩
      else (change_summary_calc p.data od).map (fun cs => ⟨p.version, p.data, tv, ac, some cs⟩)

/-- Combined server state for one portfolio: the live `portfolios` row and its
`portfolio_versions` ledger rows in insertion order. -/
structure DbState where
  portfolio : Portfolio
  ledger : List PortfolioVersionRow

/-- Model of the `create_portfolio` endpoint (the accepted path): compute the
metrics from the submitted document, insert the live row with the column
default `version = 1` (`app.models.portfolio.Portfolio.version`), then create
the initial ledger row via `create_portfolio_version`. -/
def create_portfolio (doc : Jobj) : Option DbState :=
  match calculate_portfolio_metrics doc with
  | none => none
  | some (tv, ac) =>
    let p : Portfolio :=
      { data := doc, version := 1, total_value_usd := tv, asset_count := ac,
        is_cloud_synced := false, last_sync_at := none, last_sync_device := none }
    (create_portfolio_version p none).map (fun row => ⟨p, [row]⟩)

/-- Model of the `update_portfolio` endpoint when the update carries a new
document (the only branch that mutates `data`): bump `version`, recompute the
metrics from the new document, overwrite the live data, and append a ledger
row via `create_portfolio_version` with the previous data as `old_data`. -/
def update_portfolio (doc : Jobj) (st : DbState) : Option DbState :=
  let old_data := st.portfolio.data
  match calculate_portfolio_metrics doc with
  | none => none
  | some (tv, ac) =>
    let p : Portfolio :=
      { st.portfolio with
        version := st.portfolio.version + 1, total_value_usd := tv, asset_count := ac, data := doc }
    (create_portfolio_version p (some old_data)).map (fun row => ⟨p, st.ledger ++ [row]⟩)

/-- `SyncManager.merge_portfolios_db` lifted to the combined state: the live
row is replaced by the merge result and the ledger is untouched (that method
never creates a `PortfolioVersion`). -/
def sync_db (parseIso : String → Option PyDatetime) (req : SyncRequest)
    (now : PyDatetime) (nowIso : String) (st : DbState) : Option DbState :=
  (merge_portfolios_db parseIso st.portfolio req now nowIso).map (fun p => ⟨p, st.ledger⟩)

/-- An accepted mutation after creation: a data-bearing update, or a sync that
`get_sync_status` marks as needing sync. -/
inductive Op where
  | update (doc : Jobj)
  | sync (req : SyncRequest) (now : PyDatetime) (nowIso : String)

/-- Apply one mutation, refusing (`none`) a sync the engine would treat as a
no-op (`needs_sync = False`), so that every applied `Op` is an accepted
mutation. -/
def applyAccepted (parseIso : String → Option PyDatetime) (st : DbState) : Op → Option DbState
  | .update doc => update_portfolio doc st
  | .sync req now nowIso =>
    if (get_sync_status st.portfolio req).needs_sync then sync_db parseIso req now nowIso st
    else none

/-- Run a sequence of accepted mutations, recording the live `version` after
each one. -/
def runAccepted (parseIso : String → Option PyDatetime) :
    DbState → List Op → Option (DbState × List Int)
  | st, [] => some (st, [])
  | st, op :: ops =>
    match applyAccepted parseIso st op with
    | none => none
    | some st' =>
      (runAccepted parseIso st' ops).map (fun r => (r.1, st'.portfolio.version :: r.2))

/-- Request shape consumed by the `sync_portfolio` endpoint, which reads
`local_data`, `base_version`, `device_id` and `force` from its request (the
`SyncRequest` schema in `app/schemas/portfolio_sync.py` does not declare these
fields; the endpoint is modelled on the attributes it actually accesses). -/
structure EndpointSyncRequest where
  local_data : Jobj
  base_version : Int
  device_id : String
  force : Bool

/-- Control outcome of the `sync_portfolio` endpoint up to its merge call. -/
inductive SyncEndpointOutcome where
  | staleBase
  | mergeCall (base_doc local_doc remote_doc : Jobj) (device_id : String)

/-- Model of the `sync_portfolio` endpoint through its base-version guard: the
ledger is queried for a `PortfolioVersion` with `version == base_version`;
when none exists the endpoint raises HTTP 400 "Base version not found. Full
sync required." before any merge, returning the server state untouched;
otherwise control proceeds to the three-way `merge_portfolios(base=..,
local=.., remote=.., device_id=..)` call with the retained base document
(`mergeCall` records that call's arguments). -/
def sync_portfolio (st : DbState) (req : EndpointSyncRequest) :
    DbState × SyncEndpointOutcome :=
  match st.ledger.find? (fun r => r.version == req.base_version) with
  | none => (st, .staleBase)
  | some base => (st, .mergeCall base.data req.local_data st.portfolio.data req.device_id)

/-- Key membership in terms of the key list. -/
theorem hasKeyKV_iff {l : Jobj} {k : String} :
    hasKeyKV l k = true ↔ k ∈ l.map Prod.fst := by
  induction l with
  | nil => simp [hasKeyKV, lookupKV]
  | cons hd tl ih =>
    obtain ⟨k', v⟩ := hd
    by_cases hk : k' = k
    · subst hk
      simp [hasKeyKV, lookupKV]
    · simp only [hasKeyKV, lookupKV, if_neg hk, List.map_cons, List.mem_cons]
      rw [← hasKeyKV]
      simp [ih, hk, Ne.symm hk]

/-- A successful lookup comes from an entry of the dict. -/
theorem lookupKV_mem {l : Jobj} {k : String} {v : Json} (h : lookupKV l k = some v) :
    (k, v) ∈ l := by
  induction l with
  | nil => simp [lookupKV] at h
  | cons hd tl ih =>
    obtain ⟨k', w⟩ := hd
    simp only [lookupKV] at h
    by_cases hk : k' = k
    · rw [if_pos hk] at h
      injection h with h
      subst hk
      subst h
      exact List.mem_cons_self _ _
    · rw [if_neg hk] at h
      exact List.mem_cons_of_mem _ (ih h)

/-- `nodupKeys` is `Nodup` of the key list. -/
theorem nodupKeys_iff {l : Jobj} : nodupKeys l = true ↔ (l.map Prod.fst).Nodup := by
  induction l with
  | nil => simp [nodupKeys]
  | cons hd tl ih =>
    obtain ⟨k, v⟩ := hd
    simp only [nodupKeys, Bool.and_eq_true, Bool.not_eq_true', List.map_cons, List.nodup_cons]
    have hmem := @hasKeyKV_iff tl k
    constructor
    · rintro ⟨h1, h2⟩
      exact ⟨fun hk => by rw [hmem.mpr hk] at h1; exact Bool.noConfusion h1, ih.mp h2⟩
    · rintro ⟨h1, h2⟩
      refine ⟨?_, ih.mpr h2⟩
      cases hh : hasKeyKV tl k
      · rfl
      · exact absurd (hmem.mp hh) h1

/-- With distinct keys, membership determines the lookup. -/
theorem mem_lookupKV {l : Jobj} {k : String} {v : Json}
    (hnd : nodupKeys l = true) (hm : (k, v) ∈ l) : lookupKV l k = some v := by
  induction l with
  | nil => simp at hm
  | cons hd tl ih =>
    obtain ⟨k', w⟩ := hd
    simp only [nodupKeys, Bool.and_eq_true, Bool.not_eq_true'] at hnd
    rcases List.mem_cons.mp hm with heq | hmem
    · injection heq with h1 h2
      subst h1
      subst h2
      simp [lookupKV]
    · have hk : k' ≠ k := by
        intro hkk
        subst hkk
        have : hasKeyKV tl k' = true := hasKeyKV_iff.mpr (List.mem_map.mpr ⟨(k', v), hmem, rfl⟩)
        rw [hnd.1] at this
        exact Bool.noConfusion this
      simp only [lookupKV, if_neg hk]
      exact ih hnd.2 hmem

/-- A failed lookup means the key is absent. -/
theorem lookupKV_eq_none_iff {l : Jobj} {k : String} :
    lookupKV l k = none ↔ k ∉ l.map Prod.fst := by
  rw [← hasKeyKV_iff]
  cases h : lookupKV l k <;> simp [hasKeyKV, h]

/-- Lookup is invariant under permutation of a dict with distinct keys. -/
theorem lookupKV_perm {l1 l2 : Jobj} (hp : l1.Perm l2) (hnd : nodupKeys l1 = true)
    (k : String) : lookupKV l1 k = lookupKV l2 k := by
  have hnd2 : nodupKeys l2 = true :=
    nodupKeys_iff.mpr ((hp.map Prod.fst).nodup_iff.mp (nodupKeys_iff.mp hnd))
  cases h : lookupKV l1 k with
  | some v =>
    exact (mem_lookupKV hnd2 (hp.mem_iff.mp (lookupKV_mem h))).symm
  | none =>
    have : k ∉ l2.map Prod.fst := by
      intro hk
      exact lookupKV_eq_none_iff.mp h ((hp.map Prod.fst).mem_iff.mpr hk)
    exact (lookupKV_eq_none_iff.mpr this).symm

/-- Key-sorting permutes the entries. -/
theorem insertByKey_perm (p : String × Json) (l : Jobj) : (insertByKey p l).Perm (p :: l) := by
  induction l with
  | nil => simp [insertByKey]
  | cons q rest ih =>
    simp only [insertByKey]
    by_cases h : p.1 < q.1
    · rw [if_pos h]
    · rw [if_neg h]
      exact (ih.cons q).trans (List.Perm.swap p q rest)

/-- `sortKVs` permutes the entries. -/
theorem sortKVs_perm (l : Jobj) : (sortKVs l).Perm l := by
  induction l with
  | nil => simp [sortKVs]
  | cons p rest ih =>
    exact (insertByKey_perm p (sortKVs rest)).trans (ih.cons p)

/-- `canonDDKV` rewrites values pointwise, so lookups factor through it. -/
theorem lookupKV_canonDDKV (l : Jobj) (k : String) :
    lookupKV (canonDDKV l) k = (lookupKV l k).map canonDD := by
  induction l with
  | nil => simp [canonDDKV, lookupKV]
  | cons hd tl ih =>
    obtain ⟨k', v⟩ := hd
    by_cases hk : k' = k
    · subst hk
      simp [canonDDKV, lookupKV]
    · simp [canonDDKV, lookupKV, if_neg hk, ih]

/-- `canonDDKV` preserves the key list. -/
theorem canonDDKV_keys (l : Jobj) : (canonDDKV l).map Prod.fst = l.map Prod.fst := by
  induction l with
  | nil => rfl
  | cons hd tl ih =>
    obtain ⟨k, v⟩ := hd
    simp [canonDDKV, ih]

/-- `canonDDKV` preserves key distinctness. -/
theorem nodupKeys_canonDDKV {l : Jobj} (h : nodupKeys l = true) :
    nodupKeys (canonDDKV l) = true := by
  rw [nodupKeys_iff, canonDDKV_keys]
  exact nodupKeys_iff.mp h

/-- Appending the empty report is a no-op. -/
theorem Diff.append_empty (a : Diff) : a.append Diff.empty = a := by
  simp [Diff.append, Diff.empty]

/-- Prepending the empty report is a no-op. -/
theorem Diff.empty_append (a : Diff) : Diff.empty.append a = a := by
  simp [Diff.append, Diff.empty]

/-- Values of a well-formed dict are well-formed. -/
theorem wfKV_mem : ∀ {l : Jobj} {k : String} {v : Json},
    wfKV l = true → (k, v) ∈ l → wfJ v = true := by
  intro l
  induction l with
  | nil => intro k v _ hm; simp at hm
  | cons hd tl ih =>
    intro k v hw hm
    obtain ⟨k', w⟩ := hd
    simp only [wfKV, Bool.and_eq_true] at hw
    rcases List.mem_cons.mp hm with heq | hmem
    · injection heq with h1 h2
      subst h2
      exact hw.1
    · exact ih hw.2 hmem

/-- Elements of a well-formed list are well-formed. -/
theorem wfL_mem : ∀ {xs : List Json} {x : Json}, wfL xs = true → x ∈ xs → wfJ x = true := by
  intro xs
  induction xs with
  | nil => intro x _ hm; simp at hm
  | cons hd tl ih =>
    intro x hw hm
    simp only [wfL, Bool.and_eq_true] at hw
    rcases List.mem_cons.mp hm with heq | hmem
    · subst heq; exact hw.1
    · exact ih hw.2 hmem

/-- Entry values are structurally smaller than the enclosing dict value. -/
theorem sizeOf_mem_kv {l : Jobj} {k : String} {v : Json} (h : (k, v) ∈ l) :
    sizeOf v < sizeOf (Json.obj l) := by
  have h1 : sizeOf (k, v) < sizeOf l := List.sizeOf_lt_of_mem h
  simp only [Prod.mk.sizeOf_spec] at h1
  simp only [Json.obj.sizeOf_spec]
  omega

/-- `diffCommon` reports nothing when every common key diffs to nothing. -/
theorem diffCommon_empty (pre : List String) (new : Jobj) :
    ∀ l : Jobj,
      (∀ k v w, (k, v) ∈ l → lookupKV new k = some w → deepDiff (pre ++ [k]) v w = Diff.empty) →
      diffCommon pre new l = Diff.empty := by
  intro l
  induction l with
  | nil => intro _; simp [diffCommon]
  | cons hd tl ih =>
    intro horacle
    obtain ⟨k, v⟩ := hd
    rw [diffCommon]
    split
    next w hlk =>
      rw [horacle k v w (List.mem_cons_self _ _) hlk,
        ih (fun k' v' w' hm hl => horacle k' v' w' (List.mem_cons_of_mem _ hm) hl)]
      exact Diff.empty_append _
    next hlk =>
      exact ih (fun k' v' w hm hl => horacle k' v' w (List.mem_cons_of_mem _ hm) hl)

/-- DeepDiff of a well-formed value against itself is empty (helper for the
no-op-diff property of `detect_changes`). -/
theorem deepDiff_self (a : Json) (pre : List String) (hwf : wfJ a = true) :
    deepDiff pre a a = Diff.empty := by
  match a with
  | .str s => simp [deepDiff]
  | .int n => simp [deepDiff]
  | .bool b => simp [deepDiff]
  | .null => simp [deepDiff]
  | .arr xs => simp [deepDiff, beqJ_refl]
  | .obj kvs =>
    simp only [wfJ, Bool.and_eq_true] at hwf
    rw [deepDiff]
    have hadd : kvs.filterMap
        (fun kv => if hasKeyKV kvs kv.1 then none else some (pre ++ [kv.1])) = [] := by
      rw [List.filterMap_eq_nil_iff]
      intro kv hm
      rw [if_pos (hasKeyKV_iff.mpr (List.mem_map.mpr ⟨kv, hm, rfl⟩))]
    have hcomm : diffCommon pre kvs kvs = Diff.empty := by
      apply diffCommon_empty
      intro k v w hm hl
      have hv : lookupKV kvs k = some v := mem_lookupKV hwf.1 hm
      rw [hv] at hl
      injection hl with hl
      subst hl
      exact deepDiff_self v (pre ++ [k]) (wfKV_mem hwf.2 hm)
    rw [hadd, hcomm]
    rfl
termination_by sizeOf a
decreasing_by
  exact sizeOf_mem_kv hm

/-- C8: for every document `d` (a Python dict, hence with distinct keys at
every level), `detect_changes(d, d)` is the empty change list. -/
theorem C8_theorem (d : Jobj) (h : wfJ (.obj d) = true) : detect_changes d d = [] := by
  unfold detect_changes
  rw [deepDiff_self _ _ h]
  rfl

/-- Example document for the no-op diff. -/
def c8doc : Jobj :=
  [("assets", .obj [("btc", .obj [("amount", .str "1"), ("cost_basis", .str "10")])]),
   ("settings", .obj [("currency", .str "usd")]),
   ("metadata", .obj [("device_id", .str "dev")])]

theorem C8_witness : wfJ (.obj c8doc) = true ∧ detect_changes c8doc c8doc = [] :=
  ⟨by decide, C8_theorem c8doc (by decide)⟩

/-- The spec's metric example: assets `a` (amount 2, cost basis 10) and `b`
(amount 3, cost basis 5). -/
def c3doc : Jobj :=
  [("assets", .obj [
      ("a", .obj [("amount", .str "2"), ("cost_basis", .str "10")]),
      ("b", .obj [("amount", .str "3"), ("cost_basis", .str "5")])]),
   ("settings", .obj []),
   ("metadata", .obj [])]

/-- C3 counterexample: on the spec's own example document the code returns
`total_value = 0`, not the claimed `35 = 2×10 + 3×5`; `calculate_portfolio_metrics`
hard-codes `total_value = 0` and never reads `amount` or `cost_basis`. -/
theorem C3_counterexample :
    calculate_portfolio_metrics c3doc = some (0, 2) ∧ (0 : Int) ≠ 35 :=
  ⟨rfl, by decide⟩

/-- C3 amended: the metric calculation returns `asset_count` equal to the
number of keys of the `assets` mapping, and `total_value_usd = 0` always (the
source never computes a value from `amount`/`cost_basis`). -/
theorem C3_theorem (data : Jobj) (kvs : Jobj) (h : lookupKV data "assets" = some (.obj kvs)) :
    calculate_portfolio_metrics data = some (0, kvs.length) := by
  simp [calculate_portfolio_metrics, h, pyLen]

theorem C3_witness : calculate_portfolio_metrics c3doc = some (0, 2) :=
  C3_theorem c3doc _ rfl

/-- C5: when the client-stated base version matches no retained ledger row,
`sync_portfolio` fails fast with the stale-base (HTTP 400 "Base version not
found. Full sync required.") outcome, the server state is returned untouched,
and control never reaches the merge call. -/
theorem C5_theorem (st : DbState) (req : EndpointSyncRequest)
    (h : st.ledger.all (fun r => r.version != req.base_version) = true) :
    sync_portfolio st req = (st, .staleBase) := by
  unfold sync_portfolio
  have hf : st.ledger.find? (fun r => r.version == req.base_version) = none := by
    rw [List.find?_eq_none]
    intro r hr
    have := (List.all_eq_true.mp h) r hr
    simpa [bne] using this
  rw [hf]

/-- Concrete server state with a single retained ledger row at version 1. -/
def c5st : DbState :=
  ⟨⟨[("assets", .obj [])], 1, 0, 0, false, none, none⟩,
   [⟨1, [("assets", .obj [])], 0, 0, none⟩]⟩

/-- Sync request naming a base version (99) that was never recorded. -/
def c5req : EndpointSyncRequest := ⟨[("assets", .obj [])], 99, "dev", false⟩

theorem C5_witness : sync_portfolio c5st c5req = (c5st, .staleBase) :=
  C5_theorem c5st c5req (by decide)

/-- Lookup through a pointwise update of the entries at one key. -/
theorem lookupKV_map_upd (l : Jobj) (k k' : String) (g : Json → Json) :
    lookupKV (l.map (fun kv => if kv.1 = k then (kv.1, g kv.2) else kv)) k'
      = (lookupKV l k').map (fun v => if k' = k then g v else v) := by
  induction l with
  | nil => simp [lookupKV]
  | cons hd tl ih =>
    obtain ⟨k1, v1⟩ := hd
    simp only [List.map_cons]
    by_cases h1 : k1 = k
    · subst h1
      rw [if_pos rfl]
      by_cases h2 : k1 = k'
      · subst h2
        simp [lookupKV]
      · simp only [lookupKV, if_neg h2, ih]
    · rw [if_neg h1]
      by_cases h2 : k1 = k'
      · subst h2
        simp only [lookupKV, if_pos rfl]
        simp [if_neg h1]
      · simp only [lookupKV, if_neg h2, ih]

/-- Appending an entry under a different key does not change a lookup. -/
theorem lookupKV_append_single_ne (l : Jobj) (k k0 : String) (v : Json) (h : k ≠ k0) :
    lookupKV (l ++ [(k0, v)]) k = lookupKV l k := by
  induction l with
  | nil =>
    have hne : ¬ (k0 = k) := fun he => h he.symm
    simp only [List.nil_append, lookupKV, if_neg hne]
  | cons hd tl ih =>
    obtain ⟨k1, v1⟩ := hd
    simp only [List.cons_append, lookupKV]
    split
    · rfl
    · exact ih

/-- `d[k] = v` leaves other keys' lookups unchanged. -/
theorem lookupKV_setKeyKV_ne (l : Jobj) (k k' : String) (v : Json) (h : k' ≠ k) :
    lookupKV (setKeyKV l k v) k' = lookupKV l k' := by
  unfold setKeyKV
  split
  · rw [lookupKV_map_upd l k k' (fun _ => v)]
    simp [h]
  · exact lookupKV_append_single_ne l k' k v h

theorem lookupKV_applyMetaUpdate (merged meta m : Jobj)
    (hm : applyMetaUpdate merged meta = some m) (k : String) (hk : k ≠ "metadata") :
    lookupKV m k = lookupKV merged k := by
  unfold applyMetaUpdate at hm
  by_cases hmk : hasKeyKV merged "metadata" = true
  · simp only [hmk, if_true] at hm
    split at hm
    next mm hobj =>
      injection hm with hm
      subst hm
      exact lookupKV_setKeyKV_ne _ _ _ _ hk
    next => exact Option.noConfusion hm
  · simp only [hmk, if_false, Bool.false_eq_true] at hm
    split at hm
    next mm hobj =>
      injection hm with hm
      subst hm
      rw [lookupKV_setKeyKV_ne _ _ _ _ hk]
      exact lookupKV_append_single_ne _ _ _ _ hk
    next => exact Option.noConfusion hm

/-- C10: timestamp normalization is total and always lands in aware UTC:
`None` and every string `fromisoformat` rejects map to the Unix epoch, a naive
datetime keeps its clock value and is tagged UTC, and every result carries
`tz = UTC`; consequently a sync request whose `last_sync_at` is absent or
unparseable is normalized to the epoch, so whenever the server's normalized
timestamp is at or after the epoch the last-write-wins merge keeps the server
document.  Holds for every model `parseIso` of `datetime.fromisoformat`. -/
theorem C10_theorem (parseIso : String → Option PyDatetime) :
    (ensure_timezone_aware parseIso .null = epochUtc) ∧
    (∀ s : String, parseIso (s.replace "Z" "+00:00") = none →
      ensure_timezone_aware parseIso (.ofStr s) = epochUtc) ∧
    (∀ x : TimeInput, (ensure_timezone_aware parseIso x).tz = some 0) ∧
    (∀ c : Int, ensure_timezone_aware parseIso (.ofDt ⟨c, none⟩) = ⟨c, some 0⟩) ∧
    (∀ (p : Portfolio) (req : SyncRequest) (nowIso : String),
      (req.last_sync_at = .null ∨
        ∃ s, req.last_sync_at = .ofStr s ∧ parseIso (s.replace "Z" "+00:00") = none) →
      0 ≤ instant (ensure_timezone_aware parseIso (optTime p.last_sync_at)) →
      merge_portfolios parseIso p req nowIso =
        applyMetaUpdate p.data (generate_sync_metadata req.device_id nowIso)) := by
  refine ⟨rfl, ?_, ?_, ?_, ?_⟩
  · intro s hs
    simp [ensure_timezone_aware, hs]
  · intro x
    cases x with
    | null => rfl
    | ofStr s =>
      simp only [ensure_timezone_aware]
      cases parseIso (s.replace "Z" "+00:00") with
      | none => rfl
      | some d => simp [astimezoneUtc]
    | ofDt d => simp [ensure_timezone_aware, astimezoneUtc]
  · intro c
    simp [ensure_timezone_aware, astimezoneUtc, epochUtc]
  · intro p req nowIso hreq hsrv
    have hclient : ensure_timezone_aware parseIso req.last_sync_at = epochUtc := by
      rcases hreq with h | ⟨s, hs, hp⟩
      · rw [h]
        rfl
      · rw [hs]
        simp [ensure_timezone_aware, hp]
    have h0 : instant epochUtc = 0 := rfl
    have hng : ¬ (instant (ensure_timezone_aware parseIso (optTime p.last_sync_at)) <
        instant epochUtc) := by
      rw [h0]
      omega
    unfold merge_portfolios
    rw [hclient]
    simp only [if_neg hng]

/-- Trivial instantiation of the abstract ISO parser: every string fails. -/
def parseNone : String → Option PyDatetime := fun _ => none

/-- Portfolio fixture for the timestamp-normalization witness. -/
def c10p : Portfolio :=
  ⟨[("assets", .obj []), ("metadata", .obj [])], 2, 0, 0, true, some ⟨7, some 0⟩, some "dev0"⟩

/-- Sync request with an absent `last_sync_at`. -/
def c10req : SyncRequest := ⟨[("assets", .obj [("btc", .obj [])])], .null, 2, "dev1"⟩

theorem C10_witness :
    ensure_timezone_aware parseNone .null = epochUtc ∧
    ensure_timezone_aware parseNone (.ofStr "not-a-timestamp") = epochUtc ∧
    (ensure_timezone_aware parseNone (.ofDt ⟨100, some 3600⟩)).tz = some 0 ∧
    ensure_timezone_aware parseNone (.ofDt ⟨42, none⟩) = ⟨42, some 0⟩ ∧
    merge_portfolios parseNone c10p c10req "2025-01-02T00:00:00+00:00" =
      applyMetaUpdate c10p.data (generate_sync_metadata "dev1" "2025-01-02T00:00:00+00:00") :=
  ⟨(C10_theorem parseNone).1,
   (C10_theorem parseNone).2.1 "not-a-timestamp" rfl,
   (C10_theorem parseNone).2.2.1 _,
   (C10_theorem parseNone).2.2.2.1 42,
   (C10_theorem parseNone).2.2.2.2 c10p c10req _ (Or.inl rfl) (by decide)⟩

/-- C7: in the last-write-wins merge, when the normalized client and server
timestamps coincide the merged document is built from the server's document
(server wins) — it agrees with the server document on every key except the
`"metadata"` stamp — and the client's document is used only when the client
timestamp is strictly later. -/
theorem C7_theorem (parseIso : String → Option PyDatetime) (p : Portfolio)
    (req : SyncRequest) (nowIso : String) :
    (instant (ensure_timezone_aware parseIso req.last_sync_at) =
        instant (ensure_timezone_aware parseIso (optTime p.last_sync_at)) →
      merge_portfolios parseIso p req nowIso =
        applyMetaUpdate p.data (generate_sync_metadata req.device_id nowIso) ∧
      ∀ m, merge_portfolios parseIso p req nowIso = some m →
        ∀ k, k ≠ "metadata" → lookupKV m k = lookupKV p.data k) ∧
    (instant (ensure_timezone_aware parseIso (optTime p.last_sync_at)) <
        instant (ensure_timezone_aware parseIso req.last_sync_at) →
      merge_portfolios parseIso p req nowIso =
        applyMetaUpdate req.client_data (generate_sync_metadata req.device_id nowIso)) := by
  constructor
  · intro htie
    have hng : ¬ (instant (ensure_timezone_aware parseIso (optTime p.last_sync_at)) <
        instant (ensure_timezone_aware parseIso req.last_sync_at)) := by
      rw [htie]
      omega
    have hmerge : merge_portfolios parseIso p req nowIso =
        applyMetaUpdate p.data (generate_sync_metadata req.device_id nowIso) := by
      unfold merge_portfolios
      simp only [if_neg hng]
    refine ⟨hmerge, ?_⟩
    intro m hm k hk
    rw [hmerge] at hm
    exact lookupKV_applyMetaUpdate _ _ _ hm k hk
  · intro hlt
    unfold merge_portfolios
    simp only [if_pos hlt]

/-- Portfolio fixture whose server timestamp exactly equals the client one. -/
def c7p : Portfolio :=
  ⟨[("assets", .obj [("btc", .obj [("amount", .str "1")])]), ("metadata", .obj [])],
   2, 0, 1, true, some ⟨50, some 0⟩, some "dev0"⟩

/-- Client request stamped at the same instant as the server (in another
timezone offset: 3650 seconds clock at +3600 is instant 50). -/
def c7req : SyncRequest :=
  ⟨[("assets", .obj [("btc", .obj [("amount", .str "9")])]), ("metadata", .obj [])],
   .ofDt ⟨3650, some 3600⟩, 2, "dev1"⟩

/-- Client request strictly later than the server. -/
def c7req2 : SyncRequest :=
  ⟨[("assets", .obj [("btc", .obj [("amount", .str "9")])]), ("metadata", .obj [])],
   .ofDt ⟨51, some 0⟩, 2, "dev1"⟩

theorem C7_witness :
    (merge_portfolios parseNone c7p c7req "t" =
      applyMetaUpdate c7p.data (generate_sync_metadata "dev1" "t")) ∧
    (merge_portfolios parseNone c7p c7req2 "t" =
      applyMetaUpdate c7req2.client_data (generate_sync_metadata "dev1" "t")) :=
  ⟨((C7_theorem parseNone c7p c7req "t").1 (by decide)).1,
   (C7_theorem parseNone c7p c7req2 "t").2 (by decide)⟩

/-- Portfolio at live version 3 that has been cloud synced. -/
def c1p : Portfolio :=
  ⟨[("assets", .obj [("btc", .obj [("amount", .str "1")])]), ("metadata", .obj [])],
   3, 0, 1, true, some ⟨50, some 0⟩, some "dev0"⟩

/-- Sync request claiming stale client version 1 with a newer timestamp. -/
def c1req : SyncRequest :=
  ⟨[("assets", .obj [("btc", .obj [("amount", .str "9")])]), ("metadata", .obj [])],
   .ofDt ⟨100, some 0⟩, 1, "dev1"⟩

/-- C1 counterexample: with the server at version 3 and the client stating
version 1, `get_sync_status` does report a conflict (carrying the server
version but no document), yet `merge_portfolios_db` does not stop: it bumps
the version to 4 and overwrites the server document, so server state is NOT
left unchanged. -/
theorem C1_counterexample :
    (get_sync_status c1p c1req).has_conflicts = true ∧
    (get_sync_status c1p c1req).server_version = 3 ∧
    (merge_portfolios_db parseNone c1p c1req ⟨200, some 0⟩ "t200").map Portfolio.version =
      some 4 ∧
    c1p.version = 3 ∧
    (merge_portfolios_db parseNone c1p c1req ⟨200, some 0⟩ "t200").map
      (fun q => beqJ (.obj q.data) (.obj c1p.data)) = some false := by
  refine ⟨rfl, rfl, ?_, rfl, ?_⟩ <;> decide

/-- C1 amended: on a client/server version mismatch for a cloud-synced
portfolio, `get_sync_status` reports a conflict carrying the server's current
version and last-sync timestamp (not its document), but `merge_portfolios_db`
nevertheless proceeds: it applies the last-write-wins merge, overwrites the
portfolio's data, increments its version, and updates the sync bookkeeping;
no `PortfolioVersion` ledger row is created on this path. -/
theorem C1_theorem (parseIso : String → Option PyDatetime) (p : Portfolio)
    (req : SyncRequest) (now : PyDatetime) (nowIso : String)
    (hcs : p.is_cloud_synced = true) (hne : req.client_version ≠ p.version) :
    get_sync_status p req = ⟨true, true, p.version, p.last_sync_at⟩ ∧
    merge_portfolios_db parseIso p req now nowIso =
      (merge_portfolios parseIso p req nowIso).map (fun merged =>
        { p with data := merged, version := p.version + 1, last_sync_at := some now,
                 last_sync_device := some req.device_id, is_cloud_synced := true }) ∧
    ∀ st : DbState, st.portfolio = p →
      (sync_db parseIso req now nowIso st).map DbState.ledger =
        (merge_portfolios_db parseIso p req now nowIso).map (fun _ => st.ledger) := by
  have hstatus : get_sync_status p req = ⟨true, true, p.version, p.last_sync_at⟩ := by
    unfold get_sync_status
    rw [hcs]
    simp only [Bool.not_true, Bool.false_eq_true, if_false, if_pos hne]
  refine ⟨hstatus, ?_, ?_⟩
  · unfold merge_portfolios_db
    rw [hstatus]
    simp only [Bool.not_true, Bool.false_eq_true, if_false]
    cases merge_portfolios parseIso p req nowIso <;> rfl
  · intro st hst
    unfold sync_db
    rw [hst]
    cases merge_portfolios_db parseIso p req now nowIso <;> rfl

theorem C1_witness :
    get_sync_status c1p c1req = ⟨true, true, c1p.version, c1p.last_sync_at⟩ ∧
    merge_portfolios_db parseNone c1p c1req ⟨200, some 0⟩ "t200" =
      (merge_portfolios parseNone c1p c1req "t200").map (fun merged =>
        { c1p with data := merged, version := c1p.version + 1,
                   last_sync_at := some ⟨200, some 0⟩,
                   last_sync_device := some c1req.device_id, is_cloud_synced := true }) :=
  ⟨(C1_theorem parseNone c1p c1req ⟨200, some 0⟩ "t200" rfl (by decide)).1,
   (C1_theorem parseNone c1p c1req ⟨200, some 0⟩ "t200" rfl (by decide)).2.1⟩

/-- Field characterization of a successfully created ledger row: it snapshots
the portfolio's current version and live data, with freshly recomputed
metrics. -/
theorem create_portfolio_version_spec (p : Portfolio) (od : Option Jobj)
    (row : PortfolioVersionRow) (h : create_portfolio_version p od = some row) :
    row.version = p.version ∧ row.data = p.data ∧
    calculate_portfolio_metrics p.data = some (row.total_value_usd, row.asset_count) := by
  unfold create_portfolio_version at h
  split at h
  next => exact Option.noConfusion h
  next tv ac hm =>
    split at h
    next =>
      injection h with h
      subst h
      exact ⟨rfl, rfl, hm⟩
    next od' =>
      split at h
      next =>
        injection h with h
        subst h
        exact ⟨rfl, rfl, hm⟩
      next =>
        cases hcs : change_summary_calc p.data od' with
        | none => rw [hcs] at h; exact Option.noConfusion h
        | some cs =>
          rw [hcs] at h
          injection h with h
          subst h
          exact ⟨rfl, rfl, hm⟩

/-- Step characterization of an accepted data update: version bumps by one,
the live row carries the new document and metrics, and exactly one ledger row
is appended, snapshotting that same state. -/
theorem update_portfolio_spec (doc : Jobj) (st st' : DbState)
    (h : update_portfolio doc st = some st') :
    st'.portfolio.version = st.portfolio.version + 1 ∧
    st'.portfolio.data = doc ∧
    ∃ row, st'.ledger = st.ledger ++ [row] ∧
      row.version = st'.portfolio.version ∧ row.data = st'.portfolio.data ∧
      row.total_value_usd = st'.portfolio.total_value_usd ∧
      row.asset_count = st'.portfolio.asset_count := by
  unfold update_portfolio at h
  split at h
  next => exact Option.noConfusion h
  next tv ac hm =>
    simp only [Option.map_eq_some'] at h
    obtain ⟨row, hrow, hst⟩ := h
    subst hst
    obtain ⟨hv, hd, hmm⟩ := create_portfolio_version_spec _ _ _ hrow
    simp only at hv hd hmm
    rw [hm] at hmm
    injection hmm with hmm
    have h1 := (Prod.mk.injEq _ _ _ _ |>.mp hmm).1
    have h2 := (Prod.mk.injEq _ _ _ _ |>.mp hmm).2
    exact ⟨rfl, rfl, row, rfl, hv, hd, h1.symm, h2.symm⟩

/-- Initial state characterization: creation produces version 1 and a single
matching ledger row. -/
theorem create_portfolio_spec (doc : Jobj) (st0 : DbState)
    (h : create_portfolio doc = some st0) :
    st0.portfolio.version = 1 ∧ st0.portfolio.data = doc ∧
    ∃ row, st0.ledger = [row] ∧ row.version = 1 ∧ row.data = doc ∧
      row.total_value_usd = st0.portfolio.total_value_usd ∧
      row.asset_count = st0.portfolio.asset_count := by
  unfold create_portfolio at h
  split at h
  next => exact Option.noConfusion h
  next tv ac hm =>
    simp only [Option.map_eq_some'] at h
    obtain ⟨row, hrow, hst⟩ := h
    subst hst
    obtain ⟨hv, hd, hmm⟩ := create_portfolio_version_spec _ _ _ hrow
    simp only at hv hd hmm
    rw [hm] at hmm
    injection hmm with hmm
    have h1 := (Prod.mk.injEq _ _ _ _ |>.mp hmm).1
    have h2 := (Prod.mk.injEq _ _ _ _ |>.mp hmm).2
    exact ⟨rfl, rfl, row, rfl, hv, hd, h1.symm, h2.symm⟩

/-- An accepted (needs-sync) database merge bumps the version by one. -/
theorem merge_portfolios_db_version (parseIso : String → Option PyDatetime)
    (p p' : Portfolio) (req : SyncRequest) (now : PyDatetime) (nowIso : String)
    (hs : (get_sync_status p req).needs_sync = true)
    (h : merge_portfolios_db parseIso p req now nowIso = some p') :
    p'.version = p.version + 1 := by
  unfold merge_portfolios_db at h
  simp only [hs, Bool.not_true, Bool.false_eq_true, if_false] at h
  split at h
  next => exact Option.noConfusion h
  next merged hm =>
    injection h with h
    subst h
    rfl

/-- The sync path never touches the ledger. -/
theorem sync_db_ledger (parseIso : String → Option PyDatetime) (req : SyncRequest)
    (now : PyDatetime) (nowIso : String) (st st' : DbState)
    (h : sync_db parseIso req now nowIso st = some st') :
    st'.ledger = st.ledger ∧ merge_portfolios_db parseIso st.portfolio req now nowIso =
      some st'.portfolio := by
  unfold sync_db at h
  simp only [Option.map_eq_some'] at h
  obtain ⟨p', hp, hst⟩ := h
  subst hst
  exact ⟨rfl, hp⟩

/-- Prepending the start value turns the bumped range into the full range. -/
theorem cons_range_map (a : Int) (n : Nat) :
    a :: (List.range n).map (fun i : Nat => a + 1 + (i : Int)) =
      (List.range (n + 1)).map (fun i : Nat => a + (i : Int)) := by
  rw [List.range_succ_eq_map, List.map_cons, List.map_map]
  congr 1
  · simp
  · apply List.map_congr_left
    intro i _
    simp only [Function.comp_apply]
    push_cast
    ring

/-- Trace invariant: starting from a state whose ledger rows all sit at or
below the live version, with pairwise distinct row versions, a run of accepted
mutations observes the consecutive versions `v+1, v+2, ...`, ends at
`v + length`, and preserves both ledger invariants. -/
theorem runAccepted_spec (parseIso : String → Option PyDatetime) :
    ∀ (ops : List Op) (st st' : DbState) (vs : List Int),
      (∀ r ∈ st.ledger, r.version ≤ st.portfolio.version) →
      (st.ledger.map (fun r => r.version)).Nodup →
      runAccepted parseIso st ops = some (st', vs) →
      vs = (List.range ops.length).map (fun i : Nat => st.portfolio.version + 1 + (i : Int)) ∧
      st'.portfolio.version = st.portfolio.version + ops.length ∧
      (∀ r ∈ st'.ledger, r.version ≤ st'.portfolio.version) ∧
      (st'.ledger.map (fun r => r.version)).Nodup := by
  intro ops
  induction ops with
  | nil =>
    intro st st' vs hle hnd hrun
    rw [runAccepted] at hrun
    injection hrun with hrun
    injection hrun with h1 h2
    subst h1
    subst h2
    simp
    exact ⟨hle, hnd⟩
  | cons op rest ih =>
    intro st st' vs hle hnd hrun
    rw [runAccepted] at hrun
    cases happ : applyAccepted parseIso st op with
    | none => rw [happ] at hrun; exact Option.noConfusion hrun
    | some st1 =>
      rw [happ] at hrun
      dsimp only at hrun
      cases hrn : runAccepted parseIso st1 rest with
      | none => rw [hrn] at hrun; exact Option.noConfusion hrun
      | some r =>
        obtain ⟨st2, vs2⟩ := r
        rw [hrn] at hrun
        dsimp only [Option.map] at hrun
        injection hrun with hrun
        injection hrun with h1 h2
        subst h1
        subst h2
        have hstep : st1.portfolio.version = st.portfolio.version + 1 ∧
            (∀ r ∈ st1.ledger, r.version ≤ st1.portfolio.version) ∧
            (st1.ledger.map (fun r => r.version)).Nodup := by
          cases op with
          | update doc =>
            simp only [applyAccepted] at happ
            obtain ⟨hv, hd, row, hlg, hrv, hrd, hrt, hra⟩ := update_portfolio_spec _ _ _ happ
            refine ⟨hv, ?_, ?_⟩
            · intro r hr
              rw [hlg] at hr
              rcases List.mem_append.mp hr with hr | hr
              · have := hle r hr
                omega
              · rcases List.mem_singleton.mp hr with rfl
                rw [hrv]
            · rw [hlg, List.map_append, List.map_singleton]
              apply List.Nodup.append hnd (List.nodup_singleton _)
              intro x hx hx2
              rcases List.mem_singleton.mp hx2 with rfl
              rcases List.mem_map.mp hx with ⟨r, hr, hrx⟩
              have := hle r hr
              rw [hrv, hv] at hrx
              omega
          | sync req now nowIso =>
            simp only [applyAccepted] at happ
            split at happ
            next hneed =>
              obtain ⟨hlg, hmp⟩ := sync_db_ledger _ _ _ _ _ _ happ
              have hv := merge_portfolios_db_version _ _ _ _ _ _ hneed hmp
              refine ⟨hv, ?_, ?_⟩
              · intro r hr
                rw [hlg] at hr
                have := hle r hr
                omega
              · rw [hlg]
                exact hnd
            next => exact Option.noConfusion happ
        obtain ⟨hv1, hle1, hnd1⟩ := hstep
        obtain ⟨hvs2, hv2, hle2, hnd2⟩ := ih st1 st2 vs2 hle1 hnd1 hrn
        refine ⟨?_, ?_, hle2, hnd2⟩
        · rw [hvs2, hv1]
          rw [List.length_cons]
          exact cons_range_map (st.portfolio.version + 1) rest.length ▸ rfl
        · rw [hv2, hv1]
          rw [List.length_cons]
          push_cast
          ring

/-- C4: starting from creation (version 1), any run of N accepted mutations
(data updates and accepted syncs) makes the live version take exactly the
values 1, 2, ..., N+1 in order — `1 :: vs` is the full consecutive range — so
the counter never decreases, never repeats, and the `(portfolio_id, version)`
pairs over the ledger rows stay pairwise distinct. -/
theorem C4_theorem (parseIso : String → Option PyDatetime) (doc : Jobj) (st0 : DbState)
    (ops : List Op) (st : DbState) (vs : List Int)
    (hc : create_portfolio doc = some st0)
    (hrun : runAccepted parseIso st0 ops = some (st, vs)) :
    st0.portfolio.version = 1 ∧
    st0.portfolio.version :: vs =
      (List.range (ops.length + 1)).map (fun i : Nat => (1 : Int) + (i : Int)) ∧
    st.portfolio.version = 1 + ops.length ∧
    (st.ledger.map (fun r => r.version)).Nodup := by
  obtain ⟨hv0, hd0, row, hlg0, hrv, hrd, hrt, hra⟩ := create_portfolio_spec _ _ hc
  have hle0 : ∀ r ∈ st0.ledger, r.version ≤ st0.portfolio.version := by
    intro r hr
    rw [hlg0] at hr
    rcases List.mem_singleton.mp hr with rfl
    rw [hrv, hv0]
  have hnd0 : (st0.ledger.map (fun r => r.version)).Nodup := by
    rw [hlg0, List.map_singleton]
    exact List.nodup_singleton _
  obtain ⟨hvs, hv, hle, hnd⟩ := runAccepted_spec parseIso ops st0 st vs hle0 hnd0 hrun
  refine ⟨hv0, ?_, ?_, hnd⟩
  · rw [hvs, hv0]
    exact cons_range_map 1 ops.length
  · rw [hv, hv0]

/-- Fixture documents and request for the version-trace witness. -/
def c4docA : Jobj := [("assets", .obj []), ("settings", .obj []), ("metadata", .obj [])]

def c4docB : Jobj :=
  [("assets", .obj [("btc", .obj [("amount", .str "1")])]), ("settings", .obj []),
   ("metadata", .obj [])]

def c4req : SyncRequest :=
  ⟨[("assets", .obj [("btc", .obj [("amount", .str "2")])]), ("metadata", .obj [])],
   .ofDt ⟨100, some 0⟩, 1, "dev1"⟩

def c4junk : DbState := ⟨⟨[], 0, 0, 0, false, none, none⟩, []⟩

def c4ops : List Op := [.update c4docB, .sync c4req ⟨200, some 0⟩ "t200"]

def c4st0 : DbState := (create_portfolio c4docA).getD c4junk

def c4run : Option (DbState × List Int) := runAccepted parseNone c4st0 c4ops

def c4st : DbState := (c4run.map Prod.fst).getD c4junk

def c4vs : List Int := (c4run.map Prod.snd).getD []

theorem C4_witness :
    c4st0.portfolio.version = 1 ∧
    c4st0.portfolio.version :: c4vs =
      (List.range (c4ops.length + 1)).map (fun i : Nat => (1 : Int) + (i : Int)) ∧
    c4st.portfolio.version = 1 + c4ops.length ∧
    (c4st.ledger.map (fun r => r.version)).Nodup :=
  C4_theorem parseNone c4docA c4st0 c4ops c4st c4vs rfl rfl

/-- C2 counterexample run: create, then one accepted sync. -/
def c2docA : Jobj := [("assets", .obj []), ("settings", .obj []), ("metadata", .obj [])]

def c2req : SyncRequest :=
  ⟨[("assets", .obj [("btc", .obj [("amount", .str "1")])]), ("metadata", .obj [])],
   .ofDt ⟨100, some 0⟩, 1, "dev1"⟩

def c2junk : DbState := ⟨⟨[], 0, 0, 0, false, none, none⟩, []⟩

def c2run : Option (DbState × List Int) :=
  (create_portfolio c2docA).bind
    (fun st0 => runAccepted parseNone st0 [.sync c2req ⟨200, some 0⟩ "t200"])

/-- C2 counterexample: after an accepted sync the live version is 2 but the
only ledger row still has version 1 and stale data — `merge_portfolios_db`
updated the live state without inserting a `PortfolioVersion` row, so the
highest-version ledger row does not match the live state. -/
theorem C2_counterexample :
    c2run.map (fun r => r.1.portfolio.version) = some 2 ∧
    c2run.map (fun r => r.1.ledger.map (fun row => row.version)) = some [1] ∧
    c2run.map (fun r => r.1.ledger.map (fun row => beqJ (.obj row.data) (.obj r.1.portfolio.data)))
      = some [false] := by
  refine ⟨?_, ?_, ?_⟩ <;> decide

/-- C2 amended: after creation and any run of accepted data updates, the
ledger row with the highest version exists and carries the live data,
total_value_usd and asset_count (create and update insert the ledger row
together with the live write); the accepted sync mutation, by contrast,
updates the live state while leaving the ledger untouched. -/
theorem C2_theorem (parseIso : String → Option PyDatetime) :
    (∀ (doc : Jobj) (st0 : DbState) (ops : List Op) (st : DbState) (vs : List Int),
      create_portfolio doc = some st0 →
      ops.all (fun op => match op with | .update _ => true | _ => false) = true →
      runAccepted parseIso st0 ops = some (st, vs) →
      ∃ r, r ∈ st.ledger ∧ (∀ r' ∈ st.ledger, r'.version ≤ r.version) ∧
        r.version = st.portfolio.version ∧ r.data = st.portfolio.data ∧
        r.total_value_usd = st.portfolio.total_value_usd ∧
        r.asset_count = st.portfolio.asset_count) ∧
    (∀ (req : SyncRequest) (now : PyDatetime) (nowIso : String) (st st' : DbState),
      sync_db parseIso req now nowIso st = some st' → st'.ledger = st.ledger) := by
  constructor
  · intro doc st0 ops st vs hc hall hrun
    obtain ⟨hv0, hd0, row0, hlg0, hrv0, hrd0, hrt0, hra0⟩ := create_portfolio_spec _ _ hc
    have hstart : ∃ r, r ∈ st0.ledger ∧ (∀ r' ∈ st0.ledger, r'.version ≤ r.version) ∧
        r.version = st0.portfolio.version ∧ r.data = st0.portfolio.data ∧
        r.total_value_usd = st0.portfolio.total_value_usd ∧
        r.asset_count = st0.portfolio.asset_count := by
      refine ⟨row0, ?_, ?_, ?_, ?_, hrt0, hra0⟩
      · rw [hlg0]; exact List.mem_singleton.mpr rfl
      · intro r' hr'
        rw [hlg0] at hr'
        rcases List.mem_singleton.mp hr' with rfl
        exact le_refl _
      · rw [hrv0, hv0]
      · rw [hrd0, hd0]
    clear hc hlg0 hrv0 hrd0 hrt0 hra0 hv0 hd0
    induction ops generalizing st0 st vs with
    | nil =>
      rw [runAccepted] at hrun
      injection hrun with hrun
      injection hrun with h1 h2
      subst h1
      exact hstart
    | cons op rest ih =>
      rw [runAccepted] at hrun
      cases happ : applyAccepted parseIso st0 op with
      | none => rw [happ] at hrun; exact Option.noConfusion hrun
      | some st1 =>
        rw [happ] at hrun
        dsimp only at hrun
        cases hrn : runAccepted parseIso st1 rest with
        | none => rw [hrn] at hrun; exact Option.noConfusion hrun
        | some r =>
          obtain ⟨st2, vs2⟩ := r
          rw [hrn] at hrun
          dsimp only [Option.map] at hrun
          injection hrun with hrun
          injection hrun with h1 h2
          subst h1
          simp only [List.all_cons, Bool.and_eq_true] at hall
          obtain ⟨hop, hall⟩ := hall
          cases op with
          | sync req now nowIso => exact Bool.noConfusion hop
          | update doc' =>
            simp only [applyAccepted] at happ
            obtain ⟨hv, hd, row, hlg, hrv, hrd, hrt, hra⟩ := update_portfolio_spec _ _ _ happ
            obtain ⟨rs, hrs_mem, hrs_le, hrs_v, _, _, _⟩ := hstart
            have hnext : ∃ r, r ∈ st1.ledger ∧ (∀ r' ∈ st1.ledger, r'.version ≤ r.version) ∧
                r.version = st1.portfolio.version ∧ r.data = st1.portfolio.data ∧
                r.total_value_usd = st1.portfolio.total_value_usd ∧
                r.asset_count = st1.portfolio.asset_count := by
              refine ⟨row, ?_, ?_, hrv, hrd, hrt, hra⟩
              · rw [hlg]
                exact List.mem_append.mpr (Or.inr (List.mem_singleton.mpr rfl))
              · intro r' hr'
                rw [hlg] at hr'
                rcases List.mem_append.mp hr' with hr' | hr'
                · have h1 := hrs_le r' hr'
                  rw [hrs_v] at h1
                  rw [hrv, hv]
                  omega
                · rcases List.mem_singleton.mp hr' with rfl
                  exact le_refl _
            exact ih st1 st2 vs2 hall hrn hnext
  · intro req now nowIso st st' h
    exact (sync_db_ledger _ _ _ _ _ _ h).1

/-- Update document for the ledger-invariant witness. -/
def c2wdocB : Jobj :=
  [("assets", .obj [("eth", .obj [("amount", .str "5")])]), ("settings", .obj []),
   ("metadata", .obj [])]

def c2wst0 : DbState := (create_portfolio c2docA).getD c2junk

def c2wops : List Op := [.update c2wdocB]

def c2wrun : Option (DbState × List Int) := runAccepted parseNone c2wst0 c2wops

def c2wst : DbState := (c2wrun.map Prod.fst).getD c2junk

def c2wvs : List Int := (c2wrun.map Prod.snd).getD []

def c2wsync : DbState :=
  (sync_db parseNone c2req ⟨200, some 0⟩ "t200" c2wst).getD c2junk

theorem C2_witness :
    (∃ r, r ∈ c2wst.ledger ∧ (∀ r' ∈ c2wst.ledger, r'.version ≤ r.version) ∧
      r.version = c2wst.portfolio.version ∧ r.data = c2wst.portfolio.data ∧
      r.total_value_usd = c2wst.portfolio.total_value_usd ∧
      r.asset_count = c2wst.portfolio.asset_count) ∧
    c2wsync.ledger = c2wst.ledger :=
  ⟨(C2_theorem parseNone).1 c2docA c2wst0 c2wops c2wst c2wvs rfl (by decide) rfl,
   (C2_theorem parseNone).2 c2req ⟨200, some 0⟩ "t200" c2wst c2wsync rfl⟩

/-- Size-bounded induction core for `deepDiff_canonEq`. -/
theorem deepDiff_canonEq_aux : ∀ (n : Nat) (a b : Json) (pre : List String),
    sizeOf a ≤ n → wfJ a = true → wfJ b = true → canonDD a = canonDD b →
    deepDiff pre a b = Diff.empty := by
  intro n
  induction n with
  | zero =>
    intro a b pre hsz ha hb h
    exfalso
    have : 0 < sizeOf a := by cases a <;> simp
    omega
  | succ n ihn =>
    intro a b pre hsz ha hb h
    cases a <;> cases b <;>
      try (simp only [canonDD] at h; exact Json.noConfusion h)
    case str.str s t =>
      simp only [canonDD] at h
      injection h with h
      simp [deepDiff, h]
    case int.int i1 i2 =>
      simp only [canonDD] at h
      injection h with h
      simp [deepDiff, h]
    case bool.bool x y =>
      simp only [canonDD] at h
      injection h with h
      simp [deepDiff, h]
    case null.null => simp [deepDiff]
    case arr.arr xs ys =>
      rw [deepDiff, h, beqJ_refl]
      rfl
    case obj.obj A B =>
      simp only [canonDD] at h
      injection h with h
      simp only [wfJ, Bool.and_eq_true] at ha hb
      have hperm : (canonDDKV A).Perm (canonDDKV B) :=
        (sortKVs_perm (canonDDKV A)).symm.trans (h ▸ sortKVs_perm (canonDDKV B))
      have hndA : nodupKeys (canonDDKV A) = true := nodupKeys_canonDDKV ha.1
      have hlk : ∀ k, (lookupKV A k).map canonDD = (lookupKV B k).map canonDD := by
        intro k
        rw [← lookupKV_canonDDKV, ← lookupKV_canonDDKV]
        exact lookupKV_perm hperm hndA k
      rw [deepDiff]
      have hadd : B.filterMap
          (fun kv => if hasKeyKV A kv.1 then none else some (pre ++ [kv.1])) = [] := by
        rw [List.filterMap_eq_nil_iff]
        intro kv hm
        have hlkB : lookupKV B kv.1 = some kv.2 := mem_lookupKV hb.1 (Prod.mk.eta.symm ▸ hm)
        have hx := hlk kv.1
        rw [hlkB] at hx
        cases hA : lookupKV A kv.1 with
        | none => rw [hA] at hx; simp at hx
        | some w =>
          have : hasKeyKV A kv.1 = true := by simp [hasKeyKV, hA]
          rw [if_pos this]
      have hrem : A.filterMap
          (fun kv => if hasKeyKV B kv.1 then none else some (pre ++ [kv.1])) = [] := by
        rw [List.filterMap_eq_nil_iff]
        intro kv hm
        have hlkA : lookupKV A kv.1 = some kv.2 := mem_lookupKV ha.1 (Prod.mk.eta.symm ▸ hm)
        have hx := hlk kv.1
        rw [hlkA] at hx
        cases hB : lookupKV B kv.1 with
        | none => rw [hB] at hx; simp at hx
        | some w =>
          have : hasKeyKV B kv.1 = true := by simp [hasKeyKV, hB]
          rw [if_pos this]
      have hcomm : diffCommon pre B A = Diff.empty := by
        apply diffCommon_empty
        intro k v w hm hl
        have hAk : lookupKV A k = some v := mem_lookupKV ha.1 hm
        have hx := hlk k
        rw [hAk, hl] at hx
        injection hx with hx
        have hszv : sizeOf v ≤ n := by
          have h1 := sizeOf_mem_kv hm
          simp only [Json.obj.sizeOf_spec] at hsz
          simp only [Json.obj.sizeOf_spec] at h1
          omega
        exact ihn v w (pre ++ [k]) hszv (wfKV_mem ha.2 hm)
          (wfKV_mem hb.2 (lookupKV_mem hl)) hx
      simp only [hadd, hrem, hcomm, List.append_nil]

/-- Documents that are ignore-order equal (same `canonDD` canonical form, the
comparison DeepDiff performs under `ignore_order=True`) produce an empty diff
report. -/
theorem deepDiff_canonEq (a b : Json) (pre : List String)
    (ha : wfJ a = true) (hb : wfJ b = true) (h : canonDD a = canonDD b) :
    deepDiff pre a b = Diff.empty :=
  deepDiff_canonEq_aux (sizeOf a) a b pre (le_refl _) ha hb h


/-- Two documents whose only difference is the order of a transactions list. -/
def c6d1 : Jobj :=
  [("assets", .obj [("btc", .obj [("amount", .str "1"),
      ("transactions", .arr [.str "t1", .str "t2"])])]),
   ("settings", .obj []), ("metadata", .obj [])]

def c6d2 : Jobj :=
  [("assets", .obj [("btc", .obj [("amount", .str "1"),
      ("transactions", .arr [.str "t2", .str "t1"])])]),
   ("settings", .obj []), ("metadata", .obj [])]

/-- C6 counterexample: `detect_changes` runs DeepDiff with
`ignore_order=True`, so two documents that differ only in the order of an
ordered sequence (the `transactions` list) are NOT reported as differing: the
change list is empty even though the documents are unequal. -/
theorem C6_counterexample : detect_changes c6d1 c6d2 = [] ∧ c6d1 ≠ c6d2 := by
  constructor
  · rfl
  · intro h
    have ht : beqJ (.obj c6d1) (.obj c6d2) = true := by
      rw [h]
      exact beqJ_refl _
    have hf : beqJ (.obj c6d1) (.obj c6d2) = false := by decide
    rw [hf] at ht
    exact Bool.noConfusion ht

/-- C6 amended: the comparison used by the change detector ignores the
ordering of mapping keys AND of list elements (the source passes
`ignore_order=True` to DeepDiff): any two well-formed documents with the same
ignore-order canonical form — in particular two documents whose only
difference is the order of elements in a list — produce an empty change
list. -/
theorem C6_theorem (d1 d2 : Jobj) (h1 : wfJ (.obj d1) = true) (h2 : wfJ (.obj d2) = true)
    (h : canonDD (.obj d1) = canonDD (.obj d2)) : detect_changes d1 d2 = [] := by
  unfold detect_changes
  rw [deepDiff_canonEq (.obj d1) (.obj d2) [] h1 h2 h]
  rfl

theorem C6_witness : detect_changes c6d1 c6d2 = [] :=
  C6_theorem c6d1 c6d2 (by decide) (by decide) (by rfl)

/-- Specification helper (not from the source): read a document at a key
path through nested dicts. -/
def getPath : Json → List String → Option Json
  | d, [] => some d
  | .obj kvs, k :: p => (lookupKV kvs k).bind (fun u => getPath u p)
  | _, _ :: _ => none

mutual
/-- Specification helper (not from the source): replace the node at a key
path, leaving everything else untouched (identity when the path traverses a
non-dict). -/
def setPath : Json → List String → Json → Json
  | _, [], v' => v'
  | .obj kvs, k :: p, v' => .obj (setPathKVs kvs k p v')
  | d, _ :: _, _ => d

/-- Entry list of `setPath` on a dict: rewrite the value at key `k`. -/
def setPathKVs : Jobj → String → List String → Json → Jobj
  | [], _, _, _ => []
  | (k1, u) :: rest, k, p, v' =>
      (if k1 = k then (k1, setPath u p v') else (k1, u)) :: setPathKVs rest k p v'
end

/-- `setPathKVs` is the pointwise update at one key. -/
theorem setPathKVs_eq_map (kvs : Jobj) (k : String) (p : List String) (v' : Json) :
    setPathKVs kvs k p v' =
      kvs.map (fun kv => if kv.1 = k then (kv.1, setPath kv.2 p v') else kv) := by
  induction kvs with
  | nil => rfl
  | cons hd tl ih =>
    obtain ⟨k1, u⟩ := hd
    rw [setPathKVs, List.map_cons, ih]

/-- Scalar (non-container) values: Python `str`, `int`, `bool`, `None`. -/
def isScalar : Json → Bool
  | .str _ => true
  | .int _ => true
  | .bool _ => true
  | .null => true
  | _ => false

/-- Same runtime type, for scalars (DeepDiff reports `values_changed` inside
a type, `type_changes` across types). -/
def sameCtor : Json → Json → Bool
  | .str _, .str _ => true
  | .int _, .int _ => true
  | .bool _, .bool _ => true
  | .null, .null => true
  | _, _ => false

/-- Diffing two unequal scalars yields exactly one report: `values_changed`
within a type, `type_changes` across types. -/
theorem deepDiff_scalar_ne (pre : List String) (w v' : Json)
    (hw : isScalar w = true) (hv : isScalar v' = true) (hne : v' ≠ w) :
    deepDiff pre w v' =
      (if sameCtor w v' then { Diff.empty with valuesChanged := [pre] }
       else { Diff.empty with typeChanges := [pre] }) := by
  cases w <;> cases v' <;> simp_all [isScalar, sameCtor, deepDiff] <;>
    (intro he; exact (hne (by simp [he])).elim)

/-- Key membership is unchanged by a pointwise update at one key. -/
theorem hasKeyKV_map_upd (l : Jobj) (k k1 : String) (g : Json → Json) :
    hasKeyKV (l.map (fun kv => if kv.1 = k then (kv.1, g kv.2) else kv)) k1 = hasKeyKV l k1 := by
  unfold hasKeyKV
  rw [lookupKV_map_upd]
  cases lookupKV l k1 <;> rfl

/-- `diffCommon` when exactly the entries at key `k` contribute `D` and every
other common key diffs to nothing: the total report is exactly `D`. -/
theorem diffCommon_single (pre : List String) (new : Jobj) (k : String) (D : Diff) :
    ∀ l : Jobj,
      hasKeyKV l k = true →
      nodupKeys l = true →
      (∀ k1 v1 w, (k1, v1) ∈ l → lookupKV new k1 = some w → k1 ≠ k →
        deepDiff (pre ++ [k1]) v1 w = Diff.empty) →
      (∀ v1 w, (k, v1) ∈ l → lookupKV new k = some w → deepDiff (pre ++ [k]) v1 w = D) →
      (∀ k1 v1, (k1, v1) ∈ l → hasKeyKV new k1 = true) →
      diffCommon pre new l = D := by
  intro l
  induction l with
  | nil =>
    intro hk _ _ _ _
    rw [hasKeyKV, lookupKV] at hk
    exact Bool.noConfusion hk
  | cons hd tl ih =>
    intro hk hnd hor1 hor2 hnew
    obtain ⟨k1, v1⟩ := hd
    simp only [nodupKeys, Bool.and_eq_true, Bool.not_eq_true'] at hnd
    rw [diffCommon]
    have hnew1 : hasKeyKV new k1 = true := hnew k1 v1 (List.mem_cons_self _ _)
    cases hlk : lookupKV new k1 with
    | none =>
      rw [hasKeyKV, hlk] at hnew1
      exact Bool.noConfusion hnew1
    | some w =>
      dsimp only
      by_cases hk1 : k1 = k
      · subst hk1
        rw [hor2 v1 w (List.mem_cons_self _ _) hlk]
        have hrest : diffCommon pre new tl = Diff.empty := by
          apply diffCommon_empty
          intro k2 v2 w2 hm2 hl2
          have hne2 : k2 ≠ k1 := by
            intro he
            subst he
            have hmem : hasKeyKV tl k2 = true :=
              hasKeyKV_iff.mpr (List.mem_map.mpr ⟨(k2, v2), hm2, rfl⟩)
            rw [hnd.1] at hmem
            exact Bool.noConfusion hmem
          exact hor1 k2 v2 w2 (List.mem_cons_of_mem _ hm2) hl2 hne2
        rw [hrest]
        exact Diff.append_empty D
      · rw [hor1 k1 v1 w (List.mem_cons_self _ _) hlk hk1, Diff.empty_append]
        apply ih
        · rw [hasKeyKV, lookupKV, if_neg hk1] at hk
          exact hk
        · exact hnd.2
        · intro k2 v2 w2 hm2 hl2 hne2
          exact hor1 k2 v2 w2 (List.mem_cons_of_mem _ hm2) hl2 hne2
        · intro v2 w2 hm2 hl2
          exact hor2 v2 w2 (List.mem_cons_of_mem _ hm2) hl2
        · intro k2 v2 hm2
          exact hnew k2 v2 (List.mem_cons_of_mem _ hm2)

/-- Replacing the scalar at one existing path by a different scalar makes the
diff report exactly one entry at that path: `values_changed` within a type,
`type_changes` across types. -/
theorem deepDiff_setPath : ∀ (p pre : List String) (d w v' : Json),
    wfJ d = true → getPath d p = some w → isScalar w = true → isScalar v' = true →
    v' ≠ w →
    deepDiff pre d (setPath d p v') =
      (if sameCtor w v' then { Diff.empty with valuesChanged := [pre ++ p] }
       else { Diff.empty with typeChanges := [pre ++ p] }) := by
  intro p
  induction p with
  | nil =>
    intro pre d w v' hwf hget hw hv hne
    rw [getPath] at hget
    injection hget with hget
    subst hget
    rw [List.append_nil, setPath]
    exact deepDiff_scalar_ne pre d v' hw hv hne
  | cons k p' ih =>
    intro pre d w v' hwf hget hw hv hne
    cases d with
    | str s => simp [getPath] at hget
    | int n => simp [getPath] at hget
    | bool b => simp [getPath] at hget
    | null => simp [getPath] at hget
    | arr xs => simp [getPath] at hget
    | obj kvs =>
      rw [getPath] at hget
      cases hu : lookupKV kvs k with
      | none => rw [hu] at hget; exact Option.noConfusion hget
      | some u =>
        rw [hu] at hget
        dsimp only [Option.bind] at hget
        rw [setPath, setPathKVs_eq_map]
        simp only [wfJ, Bool.and_eq_true] at hwf
        rw [deepDiff]
        have hadd : (kvs.map (fun kv => if kv.1 = k then (kv.1, setPath kv.2 p' v') else kv)).filterMap
            (fun kv => if hasKeyKV kvs kv.1 then none else some (pre ++ [kv.1])) = [] := by
          rw [List.filterMap_eq_nil_iff]
          intro kv hm
          rcases List.mem_map.mp hm with ⟨kv0, hm0, hkv⟩
          have hkey : kv.1 = kv0.1 := by
            rw [← hkv]
            by_cases h0 : kv0.1 = k <;> simp [h0]
          have hhk : hasKeyKV kvs kv.1 = true := by
            rw [hkey]
            exact hasKeyKV_iff.mpr (List.mem_map.mpr ⟨kv0, hm0, rfl⟩)
          rw [if_pos hhk]
        have hrem : kvs.filterMap
            (fun kv => if hasKeyKV
                (kvs.map (fun kv => if kv.1 = k then (kv.1, setPath kv.2 p' v') else kv)) kv.1
              then none else some (pre ++ [kv.1])) = [] := by
          rw [List.filterMap_eq_nil_iff]
          intro kv hm
          rw [hasKeyKV_map_upd kvs k kv.1 (fun x => setPath x p' v')]
          rw [if_pos (hasKeyKV_iff.mpr (List.mem_map.mpr ⟨kv, hm, rfl⟩))]
        have hcomm : diffCommon pre
            (kvs.map (fun kv => if kv.1 = k then (kv.1, setPath kv.2 p' v') else kv)) kvs =
            (if sameCtor w v' then { Diff.empty with valuesChanged := [(pre ++ [k]) ++ p'] }
             else { Diff.empty with typeChanges := [(pre ++ [k]) ++ p'] }) := by
          apply diffCommon_single
          · rw [hasKeyKV, hu]
            rfl
          · exact hwf.1
          · intro k1 v1 w1 hm1 hl1 hne1
            rw [lookupKV_map_upd kvs k k1 (fun x => setPath x p' v'),
              mem_lookupKV hwf.1 hm1] at hl1
            simp only [Option.map_some', if_neg hne1] at hl1
            injection hl1 with hl1
            subst hl1
            exact deepDiff_self v1 _ (wfKV_mem hwf.2 hm1)
          · intro v1 w1 hm1 hl1
            have hv1 : v1 = u := by
              have hx := mem_lookupKV hwf.1 hm1
              rw [hu] at hx
              injection hx with hx
              exact hx.symm
            subst hv1
            rw [lookupKV_map_upd kvs k k (fun x => setPath x p' v'), hu] at hl1
            simp only [Option.map_some', if_pos rfl] at hl1
            injection hl1 with hl1
            subst hl1
            exact ih (pre ++ [k]) v1 w v' (wfKV_mem hwf.2 hm1) hget hw hv hne
          · intro k1 v1 hm1
            rw [hasKeyKV_map_upd kvs k k1 (fun x => setPath x p' v')]
            exact hasKeyKV_iff.mpr (List.mem_map.mpr ⟨(k1, v1), hm1, rfl⟩)
        simp only [hadd, hrem, hcomm, List.append_nil]
        rw [← List.append_cons]

/-- `_get_value_by_path` on the updated document returns the new value. -/
theorem get_value_setPath : ∀ (p : List String) (d w v' : Json),
    getPath d p = some w → get_value_by_path (setPath d p v') p = v' := by
  intro p
  induction p with
  | nil =>
    intro d w v' _
    rw [setPath]
    rfl
  | cons k p' ih =>
    intro d w v' hget
    cases d with
    | str s => simp [getPath] at hget
    | int n => simp [getPath] at hget
    | bool b => simp [getPath] at hget
    | null => simp [getPath] at hget
    | arr xs => simp [getPath] at hget
    | obj kvs =>
      rw [getPath] at hget
      cases hu : lookupKV kvs k with
      | none => rw [hu] at hget; exact Option.noConfusion hget
      | some u =>
        rw [hu] at hget
        dsimp only [Option.bind] at hget
        rw [setPath, setPathKVs_eq_map, get_value_by_path]
        rw [lookupKV_map_upd kvs k k (fun x => setPath x p' v'), hu]
        simp only [Option.map_some', if_pos rfl, Option.getD_some]
        exact ih u w v' hget

/-- `detect_changes` wraps non-dict payloads as `{"value": ...}`. -/
theorem wrapVal_scalar (v : Json) (hv : isScalar v = true) :
    wrapVal v = .obj [("value", v)] := by
  cases v <;> simp [wrapVal, isScalar] at hv ⊢

/-- C9: when two well-formed documents differ only in the scalar stored at
`assets.X.amount` (the second is the first with that scalar replaced by a
different scalar), `detect_changes` returns exactly one change, of type
MODIFIED, at the dotted path `assets.X.amount`, carrying the new scalar
wrapped as `{"value": scalar}`.  (The `pySplit` hypothesis pins the benign
assumption that the asset key `X` contains no dot.) -/
theorem C9_theorem (d : Jobj) (X : String) (w v' : Json)
    (hwf : wfJ (.obj d) = true)
    (hget : getPath (.obj d) ["assets", X, "amount"] = some w)
    (hw : isScalar w = true) (hv : isScalar v' = true) (hne : v' ≠ w)
    (hsplit : pySplit '.' (dotJoin ["assets", X, "amount"]) = ["assets", X, "amount"]) :
    detect_changes d (setPathKVs d "assets" [X, "amount"] v') =
      [⟨.MODIFIED, dotJoin ["assets", X, "amount"], some (.obj [("value", v')])⟩] := by
  have hdd : deepDiff [] (.obj d) (.obj (setPathKVs d "assets" [X, "amount"] v')) =
      (if sameCtor w v' then { Diff.empty with valuesChanged := [["assets", X, "amount"]] }
       else { Diff.empty with typeChanges := [["assets", X, "amount"]] }) := by
    have h0 := deepDiff_setPath ["assets", X, "amount"] [] (.obj d) w v' hwf hget hw hv hne
    rw [List.nil_append] at h0
    exact h0
  have hval : get_value_by_path (.obj (setPathKVs d "assets" [X, "amount"] v'))
      ["assets", X, "amount"] = v' :=
    get_value_setPath ["assets", X, "amount"] (.obj d) w v' hget
  unfold detect_changes
  simp only [hdd]
  cases hsc : sameCtor w v'
  · simp only [hsc, Bool.false_eq_true, if_false, Diff.empty, List.map_nil, List.map_cons,
      List.nil_append, List.append_nil, hsplit, hval, wrapVal_scalar v' hv]
  · simp only [hsc, if_true, Diff.empty, List.map_nil, List.map_cons,
      List.nil_append, List.append_nil, hsplit, hval, wrapVal_scalar v' hv]

/-- Concrete document for the single-modified-change witness. -/
def c9d : Jobj :=
  [("assets", .obj [("btc", .obj [("amount", .str "1"), ("cost_basis", .str "10")])]),
   ("settings", .obj []), ("metadata", .obj [])]

theorem C9_witness :
    detect_changes c9d (setPathKVs c9d "assets" ["btc", "amount"] (.str "2")) =
      [⟨.MODIFIED, dotJoin ["assets", "btc", "amount"],
        some (.obj [("value", .str "2")])⟩] :=
  C9_theorem c9d "btc" (.str "1") (.str "2") (by decide) rfl (by decide) (by decide)
    (by simp) (by decide)
